/-
Verification of the UK CGT matching-and-pooling engine described in spec.md.

The engine itself (brokerage_parser/cgt/engine.py, pool.py, models.py in the
repository layout) is not present under src/ -- only its callers, README and
frontend are.  Every definition below is therefore modelled from the spec's
words, as faithfully as possible, and the claims are settled against this
model.  Rational numbers stand in for the exact decimal arithmetic the spec
mandates ("round only at final report emission"); division by zero yields
zero, matching the spec's "average cost ... treated as zero, when quantity is
zero".
-/
import Mathlib

set_option maxHeartbeats 1000000

attribute [local semireducible] Rat.add Rat.mul Rat.sub Rat.inv Rat.ofScientific

namespace CGT

/-- Modelled from the spec (§3 Data model): the three transaction kinds. -/
inductive TxKind
  | acquisition
  | disposal
  | corporateAction
deriving DecidableEq

/-- Modelled from the spec (§3, §4.1): the optional corporate-action
descriptor -- a split ratio, a consolidation ratio, or an unrecognized
descriptor (which the CorporateActionProcessor must reject). -/
inductive CorpActionDesc
  | split (r : ℚ)
  | consolidation (r : ℚ)
  | unrecognized
deriving DecidableEq

/-- Modelled from the spec (§3): an immutable Transaction record.  Dates are
day numbers; the security identifier is a natural number. -/
structure Transaction where
  security : Nat
  date : Nat
  kind : TxKind
  quantity : ℚ
  unitPrice : ℚ
  fees : ℚ
  corpAction : Option CorpActionDesc
deriving DecidableEq

/-- Modelled from the spec (§6): errors surfaced to the caller, each carrying
the security identifier and the offending transaction reference (the index of
the transaction in the date-sorted per-security list; for corporate actions,
the action's date). -/
inductive CGTError
  | InsufficientPoolQuantity (security : Nat) (ref : Nat)
  | UnsupportedCorporateAction (security : Nat) (ref : Nat)
  | OverlappingCorporateAction (security : Nat) (ref : Nat)
deriving DecidableEq

/-- Modelled from the spec (§3 PoolState, §4.3): per-security aggregate
quantity and aggregate cost. -/
structure Section104Pool where
  aggregate_quantity : ℚ
  aggregate_cost : ℚ
deriving DecidableEq

/-- Modelled from the spec (§3): the pool has no existence before the first
acquisition; it starts empty. -/
def Section104Pool.empty : Section104Pool := ⟨0, 0⟩

/-- Modelled from the spec (§4.3): absorb(quantity, cost) adds to both
aggregates; no failure mode. -/
def Section104Pool.absorb (p : Section104Pool) (quantity cost : ℚ) :
    Section104Pool :=
  ⟨p.aggregate_quantity + quantity, p.aggregate_cost + cost⟩

/-- Modelled from the spec (§4.3): withdraw(quantity) requires
aggregate_quantity ≥ quantity, else fails (none, reported upstream as
InsufficientPoolQuantity).  On success it removes cost
quantity * (aggregate_cost / aggregate_quantity), the average cost at the
moment of withdrawal.  Rational division by zero is zero, so a withdrawal of
zero from an empty pool is a no-op. -/
def Section104Pool.withdraw (p : Section104Pool) (quantity : ℚ) :
    Option (Section104Pool × ℚ) :=
  if quantity ≤ p.aggregate_quantity then
    some (⟨p.aggregate_quantity - quantity,
           p.aggregate_cost - quantity * (p.aggregate_cost / p.aggregate_quantity)⟩,
          quantity * (p.aggregate_cost / p.aggregate_quantity))
  else none

/-- Modelled from the spec (§3 Lot): an acquisition-derived lot with
remaining-quantity tracking; ref is the originating transaction reference. -/
structure Lot where
  ref : Nat
  date : Nat
  originalQty : ℚ
  remaining : ℚ
  unitCost : ℚ
  fees : ℚ
deriving DecidableEq

/-- Modelled from the spec (§4.4): the cost drawn from a lot when q units of
it are matched -- q at the lot's unit cost plus the acquisition-side fees
apportioned pro rata by quantity. -/
def Lot.matchCost (l : Lot) (q : ℚ) : ℚ :=
  q * l.unitCost + (q / l.originalQty) * l.fees

/-- Modelled from the spec (§3 MatchRecord): the three identification
sources. -/
inductive MatchSource
  | SAME_DAY
  | BED_AND_BREAKFAST
  | POOL
deriving DecidableEq

/-- Modelled from the spec (§3 MatchRecord): one allocation component --
source, matched quantity, matched cost, and the source lot reference (none
for the pool). -/
structure MatchComponent where
  source : MatchSource
  quantity : ℚ
  cost : ℚ
  lotRef : Option Nat
deriving DecidableEq

/-- Modelled from the spec (§3 MatchRecord): one disposal's allocation. -/
structure MatchRecord where
  disposalRef : Nat
  components : List MatchComponent
deriving DecidableEq

/-- Modelled from the spec (§4.2): consume up to need units from the lots
satisfying pred, walking the lot list in order, consuming each candidate lot
fully before moving to the next, until the unmatched quantity is exhausted or
no candidates remain.  Returns the emitted match components, the updated lot
list, and the quantity still unmatched. -/
def consumeFrom (pred : Lot → Bool) (src : MatchSource) :
    List Lot → ℚ → List MatchComponent × List Lot × ℚ
  | [], need => ([], [], need)
  | l :: rest, need =>
    if 0 < need ∧ pred l ∧ 0 < l.remaining then
      let t := min need l.remaining
      match consumeFrom pred src rest (need - t) with
      | (cs, rest', need') =>
        (⟨src, t, l.matchCost t, some l.ref⟩ :: cs,
         { l with remaining := l.remaining - t } :: rest', need')
    else
      match consumeFrom pred src rest need with
      | (cs, rest', need') => (cs, l :: rest', need')

/-- Modelled from the spec (§4.2 rule 1): same-day candidates are the lots
dated identically to the disposal. -/
def sdPred (d : Transaction) (l : Lot) : Bool := l.date == d.date

/-- Modelled from the spec (§4.2 rule 2): bed-and-breakfast candidates are
the lots dated strictly after the disposal, within 30 calendar days
inclusive. -/
def bbPred (d : Transaction) (l : Lot) : Bool :=
  decide (d.date < l.date) && decide (l.date ≤ d.date + 30)

/-- Modelled from the spec (§4.2): allocate one disposal's quantity --
same-day first, then bed-and-breakfast from the quantity left unmatched; the
returned rational is the quantity still unmatched, to be satisfied from the
pool.  The lot list is kept date-sorted (stable in input order), so the
bed-and-breakfast walk takes qualifying lots earliest-date-first and the
same-day walk takes same-date lots in input order (the documented
tie-break). -/
def matchDisposal (lots : List Lot) (d : Transaction) :
    List MatchComponent × List Lot × ℚ :=
  match consumeFrom (sdPred d) MatchSource.SAME_DAY lots d.quantity with
  | (sdComps, lots1, rem1) =>
    match consumeFrom (bbPred d) MatchSource.BED_AND_BREAKFAST lots1 rem1 with
    | (bbComps, lots2, rem2) => (sdComps ++ bbComps, lots2, rem2)

/-- Modelled from the spec (§4.2, §9): the pass-one outcome for one disposal
-- its transaction reference, the transaction itself, the same-day and
bed-and-breakfast components, and the quantity left for the pool. -/
structure PreMatch where
  ref : Nat
  tx : Transaction
  comps : List MatchComponent
  poolNeed : ℚ
deriving DecidableEq

/-- Modelled from the spec (§4.2, §9): pass one resolves same-day and
bed-and-breakfast matches across the whole timeline, in date order (ties in
input order), before any pool mutation occurs.  Threads the lot list through
every disposal. -/
def passOne : List (Nat × Transaction) → List Lot → List PreMatch × List Lot
  | [], lots => ([], lots)
  | (i, t) :: rest, lots =>
    if t.kind == TxKind.disposal then
      match matchDisposal lots t with
      | (comps, lots', rem) =>
        match passOne rest lots' with
        | (ps, lotsF) => (⟨i, t, comps, rem⟩ :: ps, lotsF)
    else passOne rest lots

/-- Modelled from the spec (§3): lots are created when an acquisition is
first processed, with remaining quantity initially the full quantity. -/
def buildLots (itxns : List (Nat × Transaction)) : List Lot :=
  itxns.filterMap fun p =>
    if p.2.kind == TxKind.acquisition then
      some ⟨p.1, p.2.date, p.2.quantity, p.2.quantity, p.2.unitPrice, p.2.fees⟩
    else none

/-- Modelled from the spec (§4.2): the chronological pool events of pass two
-- folding an acquisition's unclaimed quantity into the pool at its own cost,
or satisfying a disposal's remaining quantity from the pool. -/
inductive PoolEvent
  | absorbEv (l : Lot)
  | dispEv (pre : PreMatch)
deriving DecidableEq

/-- Modelled from the spec (§4.2): interleave the date-sorted unclaimed lots
and the date-sorted resolved disposals chronologically; on equal dates the
absorption comes first, so that the pool state right before a disposal
reflects all pool-eligible acquisitions dated ≤ the disposal date. -/
def mergeEvents : List Lot → List PreMatch → List PoolEvent
  | [], ps => ps.map PoolEvent.dispEv
  | l :: ls, ps =>
    (ps.takeWhile fun p => decide (p.tx.date < l.date)).map PoolEvent.dispEv ++
      (PoolEvent.absorbEv l ::
        mergeEvents ls (ps.dropWhile fun p => decide (p.tx.date < l.date)))

/-- Modelled from the spec (§6): per-disposal report entry -- the match
record, the disposal transaction, proceeds, allowable cost, gain/loss. -/
structure DisposalResult where
  record : MatchRecord
  tx : Transaction
  proceeds : ℚ
  allowableCost : ℚ
  gainLoss : ℚ
deriving DecidableEq

/-- Modelled from the spec (§4.4 GainLossCalculator): proceeds = disposal
quantity × disposal unit price − disposal-side fees; allowable cost = sum of
matched-component costs (acquisition-side fees are already apportioned into
each component's cost); gain/loss = proceeds − allowable cost. -/
def calcGainLoss (pre : PreMatch) (comps : List MatchComponent) :
    DisposalResult :=
  ⟨⟨pre.ref, comps⟩, pre.tx,
   pre.tx.quantity * pre.tx.unitPrice - pre.tx.fees,
   (comps.map MatchComponent.cost).sum,
   pre.tx.quantity * pre.tx.unitPrice - pre.tx.fees
     - (comps.map MatchComponent.cost).sum⟩

/-- Modelled from the spec (§4.2 rule 3, §9): pass two sweeps the
chronological pool events, absorbing unclaimed acquisition quantity and
withdrawing each disposal's remaining quantity; a disposal with nothing left
for the pool does not touch the pool; a failed withdrawal is fatal for the
security with InsufficientPoolQuantity. -/
def passTwo : List PoolEvent → Section104Pool →
    Except CGTError (List DisposalResult × Section104Pool)
  | [], pool => Except.ok ([], pool)
  | PoolEvent.absorbEv l :: rest, pool =>
    passTwo rest (pool.absorb l.remaining (l.matchCost l.remaining))
  | PoolEvent.dispEv pre :: rest, pool =>
    if 0 < pre.poolNeed then
      match pool.withdraw pre.poolNeed with
      | none => Except.error
          (CGTError.InsufficientPoolQuantity pre.tx.security pre.ref)
      | some (pool', c) =>
        match passTwo rest pool' with
        | Except.error e => Except.error e
        | Except.ok (rs, pf) =>
          Except.ok (calcGainLoss pre
            (pre.comps ++ [⟨MatchSource.POOL, pre.poolNeed, c, none⟩]) :: rs, pf)
    else
      match passTwo rest pool with
      | Except.error e => Except.error e
      | Except.ok (rs, pf) => Except.ok (calcGainLoss pre pre.comps :: rs, pf)

/-- Modelled from the spec (§8): the trace of pool states observed at every
point of pass two, for stating the timeline invariant.  Mirrors passTwo,
stopping where passTwo fails. -/
def passTwoStates : List PoolEvent → Section104Pool → List Section104Pool
  | [], pool => [pool]
  | PoolEvent.absorbEv l :: rest, pool =>
    pool :: passTwoStates rest (pool.absorb l.remaining (l.matchCost l.remaining))
  | PoolEvent.dispEv pre :: rest, pool =>
    if 0 < pre.poolNeed then
      match pool.withdraw pre.poolNeed with
      | none => [pool]
      | some (pool', _) => pool :: passTwoStates rest pool'
    else pool :: passTwoStates rest pool

/-- Modelled from the spec (§4.1): a split with ratio r multiplies the
quantity and divides the unit cost of every transaction dated strictly
before the action; fees and dates are untouched. -/
def adjustBy (r : ℚ) (cutoff : Nat) (t : Transaction) : Transaction :=
  if t.date < cutoff then
    { t with quantity := t.quantity * r, unitPrice := t.unitPrice / r }
  else t

/-- Modelled from the spec (§4.1): walk the chronological list, rewriting the
already-seen transactions at each corporate action (consolidations apply the
inverse ratio) and dropping the action itself; an unrecognized descriptor
fails with UnsupportedCorporateAction. -/
def applyCAAux (acc : List Transaction) :
    List Transaction → Except CGTError (List Transaction)
  | [] => Except.ok acc
  | t :: rest =>
    match t.kind, t.corpAction with
    | TxKind.corporateAction, some (CorpActionDesc.split r) =>
      applyCAAux (acc.map (adjustBy r t.date)) rest
    | TxKind.corporateAction, some (CorpActionDesc.consolidation r) =>
      applyCAAux (acc.map (adjustBy r⁻¹ t.date)) rest
    | TxKind.corporateAction, _ =>
      Except.error (CGTError.UnsupportedCorporateAction t.security t.date)
    | _, _ => applyCAAux (acc ++ [t]) rest

/-- Modelled from the spec (§4.1 CorporateActionProcessor): adjust the
chronological transaction list for one security. -/
def applyCorporateActions (txns : List Transaction) :
    Except CGTError (List Transaction) :=
  applyCAAux [] txns

/-- Modelled from the spec (§4.2): the rank used to put same-date
acquisitions (and corporate actions) before same-date disposals in the
processing order. -/
def kindRank : TxKind → Nat
  | TxKind.acquisition => 0
  | TxKind.corporateAction => 0
  | TxKind.disposal => 1

/-- Modelled from the spec (§4.2): the processing order -- by date, with
same-date acquisitions before same-date disposals, stable in input order. -/
def txLE (a b : Transaction) : Prop :=
  a.date < b.date ∨ (a.date = b.date ∧ kindRank a.kind ≤ kindRank b.kind)

instance (a b : Transaction) : Decidable (txLE a b) :=
  inferInstanceAs (Decidable
    (a.date < b.date ∨ (a.date = b.date ∧ kindRank a.kind ≤ kindRank b.kind)))

instance : IsTotal Transaction txLE :=
  ⟨fun a b => by unfold txLE; omega⟩

instance : IsTrans Transaction txLE :=
  ⟨fun a b c => by unfold txLE; omega⟩

/-- Modelled from the spec (§4.2 MatchEngine): one security's computation --
sort chronologically (stable), run the CorporateActionProcessor, resolve
same-day and bed-and-breakfast matches in pass one, then sweep the pool
events in pass two. -/
def processSecurity (txns : List Transaction) :
    Except CGTError (List DisposalResult × Section104Pool) :=
  match applyCorporateActions (List.insertionSort txLE txns) with
  | Except.error e => Except.error e
  | Except.ok adjusted =>
    match passOne adjusted.enum (buildLots adjusted.enum) with
    | (pres, finalLots) =>
      passTwo (mergeEvents finalLots pres) Section104Pool.empty

/-- Modelled from the spec (§8): the pool states observed at every point of
one security's timeline. -/
def processSecurityPools (txns : List Transaction) : List Section104Pool :=
  match applyCorporateActions (List.insertionSort txLE txns) with
  | Except.error _ => []
  | Except.ok adjusted =>
    match passOne adjusted.enum (buildLots adjusted.enum) with
    | (pres, finalLots) =>
      passTwoStates (mergeEvents finalLots pres) Section104Pool.empty

/-- Modelled from the spec (§5, §7): the securities of a batch, in a
canonical (sorted, deduplicated) order. -/
def securityIds (txns : List Transaction) : List Nat :=
  List.insertionSort (fun a b => a ≤ b) (txns.map Transaction.security).dedup

/-- Modelled from the spec (§7): one security's computation over the batch --
errors are security-scoped, so each security sees only its own
transactions. -/
def reportFor (txns : List Transaction) (s : Nat) :
    Except CGTError (List DisposalResult × Section104Pool) :=
  processSecurity (txns.filter fun t => t.security == s)

/-- Modelled from the spec (§4.5 ReportAggregator): fold the gain/loss
entries into (total gains, total losses), losses as a positive magnitude. -/
def aggregate (entries : List ℚ) : ℚ × ℚ :=
  entries.foldl
    (fun acc g =>
      if 0 < g then (acc.1 + g, acc.2)
      else if g < 0 then (acc.1, acc.2 - g)
      else acc)
    (0, 0)

/-- Modelled from the spec (§7): the gain/loss entries of the successful
securities, in report order. -/
def gainEntries
    (entries : List (Nat × Except CGTError (List DisposalResult × Section104Pool))) :
    List ℚ :=
  entries.foldr
    (fun e acc =>
      match e.2 with
      | Except.ok r => r.1.map DisposalResult.gainLoss ++ acc
      | Except.error _ => acc)
    []

deriving instance DecidableEq for Except

/-- Modelled from the spec (§3, §6 CGTReport): per-security entries (the
failed securities mark their entries absent with an attached error) plus the
aggregate totals. -/
structure CGTReport where
  entries : List (Nat × Except CGTError (List DisposalResult × Section104Pool))
  totalGains : ℚ
  totalLosses : ℚ
  net : ℚ
deriving DecidableEq

/-- Modelled from the spec (§2 data flow): the whole batch computation. -/
def calculate (txns : List Transaction) : CGTReport :=
  let entries := (securityIds txns).map fun s => (s, reportFor txns s)
  let g := aggregate (gainEntries entries)
  ⟨entries, g.1, g.2, g.1 - g.2⟩

/-- Modelled from the spec (§3): input well-formedness -- quantities, unit
prices and fees are non-negative decimals and corporate-action ratios are
positive. -/
def ratioOk (t : Transaction) : Bool :=
  match t.corpAction with
  | some (CorpActionDesc.split r) => decide (0 < r)
  | some (CorpActionDesc.consolidation r) => decide (0 < r)
  | _ => true

/-- Modelled from the spec (§3): a well-formed input transaction. -/
def ValidTx (t : Transaction) : Prop :=
  0 ≤ t.quantity ∧ 0 ≤ t.unitPrice ∧ 0 ≤ t.fees ∧ ratioOk t = true

instance (t : Transaction) : Decidable (ValidTx t) :=
  inferInstanceAs (Decidable (0 ≤ t.quantity ∧ 0 ≤ t.unitPrice ∧ 0 ≤ t.fees ∧ ratioOk t = true))

/-- How matching may change a lot: every field is preserved except remaining,
which only decreases (staying non-negative when it was). -/
@[reducible] def lotEvolved (l' l : Lot) : Prop :=
  l'.ref = l.ref ∧ l'.date = l.date ∧ l'.originalQty = l.originalQty ∧
  l'.unitCost = l.unitCost ∧ l'.fees = l.fees ∧
  l'.remaining ≤ l.remaining ∧ (0 ≤ l.remaining → 0 ≤ l'.remaining)

/-- The availability test: a candidate lot with something left to take. -/
def availPred (pred : Lot → Bool) (l : Lot) : Bool :=
  pred l && decide (0 < l.remaining)

/-- Validity of a lot derived from a well-formed acquisition. -/
@[reducible] def lotValid (l : Lot) : Prop :=
  0 ≤ l.remaining ∧ 0 ≤ l.unitCost ∧ 0 ≤ l.fees ∧ 0 ≤ l.originalQty

/-- The cost basis of a transaction, invariant under recognized corporate
actions. -/
def basis (t : Transaction) : ℚ := t.quantity * t.unitPrice

/-- A corporate-action transaction whose descriptor is unrecognized. -/
@[reducible] def badCA (t : Transaction) : Prop :=
  t.kind = TxKind.corporateAction ∧
    (t.corpAction = none ∨ t.corpAction = some CorpActionDesc.unrecognized)

/-! ### Concrete inputs used to witness the claims -/

/-- A mixed-tier example: pool acquisition day 0, same-day acquisition day 5,
disposal day 5, bed-and-breakfast acquisition day 6. -/
def exMixed : List Transaction :=
  [⟨1, 0, TxKind.acquisition, 100, 7, 0, none⟩,
   ⟨1, 5, TxKind.disposal, 100, 20, 0, none⟩,
   ⟨1, 5, TxKind.acquisition, 30, 8, 0, none⟩,
   ⟨1, 6, TxKind.acquisition, 40, 9, 0, none⟩]

/-- The result of processing exMixed: 30 same-day, 40 bed-and-breakfast,
30 from the pool. -/
def exMixedRes : List DisposalResult × Section104Pool :=
  ([⟨⟨2, [⟨MatchSource.SAME_DAY, 30, 240, some 1⟩,
          ⟨MatchSource.BED_AND_BREAKFAST, 40, 360, some 3⟩,
          ⟨MatchSource.POOL, 30, 210, none⟩]⟩,
     ⟨1, 5, TxKind.disposal, 100, 20, 0, none⟩,
     2000, 810, 1190⟩],
   ⟨70, 490⟩)

/-- A concrete date-sorted lot list with candidates in all three windows
relative to exDisp (same-day, bed-and-breakfast, pool-eligible). -/
def exLots : List Lot :=
  [⟨1, 5, 30, 30, 8, 0⟩, ⟨3, 6, 40, 40, 9, 0⟩, ⟨0, 0, 100, 100, 7, 0⟩]

/-- A concrete disposal of 100 units on day 5. -/
def exDisp : Transaction := ⟨1, 5, TxKind.disposal, 100, 20, 0, none⟩

/-- A disposal fully covered by a bed-and-breakfast acquisition ten days
later. -/
def exC5 : List Transaction :=
  [⟨1, 10, TxKind.disposal, 50, 30, 0, none⟩,
   ⟨1, 20, TxKind.acquisition, 50, 12, 0, none⟩]

/-- A 2-for-1 split applied mid-history after one acquisition. -/
def exC6 : List Transaction :=
  [⟨1, 1, TxKind.acquisition, 100, 10, 0, none⟩,
   ⟨1, 50, TxKind.corporateAction, 0, 0, 0, some (CorpActionDesc.split 2)⟩]

/-- A corporate action with an unrecognized descriptor. -/
def exC6bad : List Transaction :=
  [⟨1, 1, TxKind.acquisition, 100, 10, 0, none⟩,
   ⟨1, 50, TxKind.corporateAction, 0, 0, 0, some CorpActionDesc.unrecognized⟩]

/-- Two same-date acquisitions competing for one bed-and-breakfast match
(no disposal shares their date, so no same-day competition exists). -/
def exL1 : List Transaction :=
  [⟨1, 5, TxKind.acquisition, 10, 1, 0, none⟩,
   ⟨1, 5, TxKind.acquisition, 10, 2, 0, none⟩,
   ⟨1, 1, TxKind.disposal, 10, 5, 0, none⟩]

/-- exL1 with the two same-date acquisitions swapped. -/
def exL2 : List Transaction :=
  [⟨1, 5, TxKind.acquisition, 10, 2, 0, none⟩,
   ⟨1, 5, TxKind.acquisition, 10, 1, 0, none⟩,
   ⟨1, 1, TxKind.disposal, 10, 5, 0, none⟩]

/-- A permutation pair with all dates distinct. -/
def exL3 : List Transaction :=
  [⟨1, 1, TxKind.acquisition, 10, 2, 0, none⟩,
   ⟨1, 40, TxKind.disposal, 5, 3, 0, none⟩]

/-- exL3 reversed. -/
def exL4 : List Transaction :=
  [⟨1, 40, TxKind.disposal, 5, 3, 0, none⟩,
   ⟨1, 1, TxKind.acquisition, 10, 2, 0, none⟩]

/-- The spec's worked pool example: 100 units at 10 and 100 units at 20
pooled, then 50 units disposed from the pool. -/
def exC8 : List Transaction :=
  [⟨1, 1, TxKind.acquisition, 100, 10, 0, none⟩,
   ⟨1, 2, TxKind.acquisition, 100, 20, 0, none⟩,
   ⟨1, 100, TxKind.disposal, 50, 30, 0, none⟩]

/-- A two-security batch where security 1 fails (a disposal with no supply)
and security 2 succeeds. -/
def exC10 : List Transaction :=
  [⟨1, 1, TxKind.disposal, 5, 10, 0, none⟩,
   ⟨2, 1, TxKind.acquisition, 10, 2, 0, none⟩,
   ⟨2, 40, TxKind.disposal, 10, 3, 0, none⟩]

/-! ### Lemmas about consumeFrom -/

theorem consumeFrom_nil (pred : Lot → Bool) (src : MatchSource) (need : ℚ) :
    consumeFrom pred src [] need = ([], [], need) := rfl

theorem consumeFrom_cons_pos (pred : Lot → Bool) (src : MatchSource)
    (l : Lot) (rest : List Lot) (need : ℚ)
    (h : 0 < need ∧ pred l ∧ 0 < l.remaining) :
    consumeFrom pred src (l :: rest) need =
      (⟨src, min need l.remaining, l.matchCost (min need l.remaining), some l.ref⟩ ::
         (consumeFrom pred src rest (need - min need l.remaining)).1,
       { l with remaining := l.remaining - min need l.remaining } ::
         (consumeFrom pred src rest (need - min need l.remaining)).2.1,
       (consumeFrom pred src rest (need - min need l.remaining)).2.2) := by
  rcases hr : consumeFrom pred src rest (need - min need l.remaining) with ⟨cs, rest', need'⟩
  simp only [consumeFrom, if_pos h, hr]

theorem consumeFrom_cons_neg (pred : Lot → Bool) (src : MatchSource)
    (l : Lot) (rest : List Lot) (need : ℚ)
    (h : ¬ (0 < need ∧ pred l ∧ 0 < l.remaining)) :
    consumeFrom pred src (l :: rest) need =
      ((consumeFrom pred src rest need).1,
       l :: (consumeFrom pred src rest need).2.1,
       (consumeFrom pred src rest need).2.2) := by
  rcases hr : consumeFrom pred src rest need with ⟨cs, rest', need'⟩
  simp only [consumeFrom, if_neg h, hr]

theorem consumeFrom_need_le (pred : Lot → Bool) (src : MatchSource) :
    ∀ (lots : List Lot) (need : ℚ), need ≤ 0 →
      consumeFrom pred src lots need = ([], lots, need)
  | [], need, _ => rfl
  | l :: rest, need, hle => by
    have hcond : ¬ (0 < need ∧ pred l ∧ 0 < l.remaining) := by
      rintro ⟨h1, -, -⟩; exact absurd hle (not_le.mpr h1)
    rw [consumeFrom_cons_neg pred src l rest need hcond,
        consumeFrom_need_le pred src rest need hle]

theorem consumeFrom_sum (pred : Lot → Bool) (src : MatchSource) :
    ∀ (lots : List Lot) (need : ℚ),
      (((consumeFrom pred src lots need).1.map MatchComponent.quantity).sum)
        = need - (consumeFrom pred src lots need).2.2
  | [], need => by simp [consumeFrom_nil]
  | l :: rest, need => by
    by_cases h : 0 < need ∧ pred l ∧ 0 < l.remaining
    · rw [consumeFrom_cons_pos pred src l rest need h]
      have ih := consumeFrom_sum pred src rest (need - min need l.remaining)
      simp only [List.map_cons, List.sum_cons, ih]
      ring
    · rw [consumeFrom_cons_neg pred src l rest need h]
      exact consumeFrom_sum pred src rest need

theorem consumeFrom_need_nonneg (pred : Lot → Bool) (src : MatchSource) :
    ∀ (lots : List Lot) (need : ℚ), 0 ≤ need →
      0 ≤ (consumeFrom pred src lots need).2.2
  | [], need, h => h
  | l :: rest, need, hnn => by
    by_cases h : 0 < need ∧ pred l ∧ 0 < l.remaining
    · rw [consumeFrom_cons_pos pred src l rest need h]
      exact consumeFrom_need_nonneg pred src rest _
        (by simp only [sub_nonneg]; exact min_le_left _ _)
    · rw [consumeFrom_cons_neg pred src l rest need h]
      exact consumeFrom_need_nonneg pred src rest need hnn

theorem consumeFrom_need_mono (pred : Lot → Bool) (src : MatchSource) :
    ∀ (lots : List Lot) (need : ℚ),
      (consumeFrom pred src lots need).2.2 ≤ need
  | [], need => le_refl need
  | l :: rest, need => by
    by_cases h : 0 < need ∧ pred l ∧ 0 < l.remaining
    · rw [consumeFrom_cons_pos pred src l rest need h]
      refine le_trans (consumeFrom_need_mono pred src rest _) ?_
      have : 0 ≤ min need l.remaining := le_min (le_of_lt h.1) (le_of_lt h.2.2)
      linarith
    · rw [consumeFrom_cons_neg pred src l rest need h]
      exact consumeFrom_need_mono pred src rest need

theorem lotEvolved_trans {l₂ l₁ l₀ : Lot}
    (h₂ : lotEvolved l₂ l₁) (h₁ : lotEvolved l₁ l₀) : lotEvolved l₂ l₀ :=
  ⟨h₂.1.trans h₁.1, h₂.2.1.trans h₁.2.1, h₂.2.2.1.trans h₁.2.2.1,
   h₂.2.2.2.1.trans h₁.2.2.2.1, h₂.2.2.2.2.1.trans h₁.2.2.2.2.1,
   h₂.2.2.2.2.2.1.trans h₁.2.2.2.2.2.1,
   fun h => h₂.2.2.2.2.2.2 (h₁.2.2.2.2.2.2 h)⟩

theorem consumeFrom_lots_rel (pred : Lot → Bool) (src : MatchSource) :
    ∀ (lots : List Lot) (need : ℚ),
      ∀ l' ∈ (consumeFrom pred src lots need).2.1, ∃ l ∈ lots, lotEvolved l' l
  | [], need => by simp [consumeFrom_nil]
  | l :: rest, need => by
    by_cases h : 0 < need ∧ pred l ∧ 0 < l.remaining
    · rw [consumeFrom_cons_pos pred src l rest need h]
      intro l' hl'
      rcases List.mem_cons.mp hl' with heq | hmem
      · refine ⟨l, List.mem_cons_self l rest, ?_⟩
        subst heq
        refine ⟨rfl, rfl, rfl, rfl, rfl, ?_, ?_⟩
        · have : 0 ≤ min need l.remaining := le_min (le_of_lt h.1) (le_of_lt h.2.2)
          simp only; linarith
        · intro _
          have : min need l.remaining ≤ l.remaining := min_le_right _ _
          simp only; linarith
      · rcases consumeFrom_lots_rel pred src rest _ l' hmem with ⟨l₀, hl₀, hrel⟩
        exact ⟨l₀, List.mem_cons_of_mem l hl₀, hrel⟩
    · rw [consumeFrom_cons_neg pred src l rest need h]
      intro l' hl'
      rcases List.mem_cons.mp hl' with heq | hmem
      · subst heq
        exact ⟨l', List.mem_cons_self l' rest,
          rfl, rfl, rfl, rfl, rfl, le_refl _, fun hh => hh⟩
      · rcases consumeFrom_lots_rel pred src rest _ l' hmem with ⟨l₀, hl₀, hrel⟩
        exact ⟨l₀, List.mem_cons_of_mem l hl₀, hrel⟩

theorem consumeFrom_exhaust (pred : Lot → Bool) (src : MatchSource) :
    ∀ (lots : List Lot) (need : ℚ),
      0 < (consumeFrom pred src lots need).2.2 →
      ∀ l' ∈ (consumeFrom pred src lots need).2.1, pred l' = true →
        l'.remaining ≤ 0
  | [], need => by simp [consumeFrom_nil]
  | l :: rest, need => by
    by_cases h : 0 < need ∧ pred l ∧ 0 < l.remaining
    · rw [consumeFrom_cons_pos pred src l rest need h]
      intro hpos l' hl' hpredl
      rcases List.mem_cons.mp hl' with heq | hmem
      · subst heq
        simp only
        by_contra hgt
        push_neg at hgt
        have hmin : min need l.remaining = need := by
          rcases min_cases need l.remaining with ⟨he, -⟩ | ⟨he, hle⟩
          · exact he
          · exfalso; rw [he] at hgt; linarith
        rw [hmin] at hpos
        rw [sub_self] at hpos
        rw [consumeFrom_need_le pred src rest 0 (le_refl 0)] at hpos
        exact absurd hpos (lt_irrefl 0)
      · exact consumeFrom_exhaust pred src rest _ hpos l' hmem hpredl
    · rw [consumeFrom_cons_neg pred src l rest need h]
      intro hpos l' hl' hpredl
      rcases List.mem_cons.mp hl' with heq | hmem
      · subst heq
        by_contra hgt
        push_neg at hgt
        have hneed : ¬ 0 < need := by
          intro hn; exact h ⟨hn, hpredl, hgt⟩
        have hle0 : need ≤ 0 := not_lt.mp hneed
        rw [consumeFrom_need_le pred src rest need hle0] at hpos
        exact absurd hpos (not_lt.mpr hle0)
      · exact consumeFrom_exhaust pred src rest _ hpos l' hmem hpredl

theorem consumeFrom_comps (pred : Lot → Bool) (src : MatchSource) :
    ∀ (lots : List Lot) (need : ℚ),
      ∀ c ∈ (consumeFrom pred src lots need).1,
        c.source = src ∧ 0 < c.quantity ∧
        ∃ l ∈ lots, c.lotRef = some l.ref ∧ pred l = true
  | [], need => by simp [consumeFrom_nil]
  | l :: rest, need => by
    by_cases h : 0 < need ∧ pred l ∧ 0 < l.remaining
    · rw [consumeFrom_cons_pos pred src l rest need h]
      intro c hc
      rcases List.mem_cons.mp hc with heq | hmem
      · subst heq
        refine ⟨rfl, lt_min h.1 h.2.2, l, List.mem_cons_self l rest, rfl, h.2.1⟩
      · rcases consumeFrom_comps pred src rest _ c hmem with ⟨h1, h2, l₀, hl₀, h3⟩
        exact ⟨h1, h2, l₀, List.mem_cons_of_mem l hl₀, h3⟩
    · rw [consumeFrom_cons_neg pred src l rest need h]
      intro c hc
      rcases consumeFrom_comps pred src rest _ c hc with ⟨h1, h2, l₀, hl₀, h3⟩
      exact ⟨h1, h2, l₀, List.mem_cons_of_mem l hl₀, h3⟩

theorem consumeFrom_comps_nil (pred : Lot → Bool) (src : MatchSource)
    (lots : List Lot) (need : ℚ) (h : need ≤ 0) :
    (consumeFrom pred src lots need).1 = [] := by
  rw [consumeFrom_need_le pred src lots need h]

theorem consumeFrom_refs_prefix (pred : Lot → Bool) (src : MatchSource) :
    ∀ (lots : List Lot) (need : ℚ),
      ((consumeFrom pred src lots need).1.map MatchComponent.lotRef) <+:
        ((lots.filter (availPred pred)).map fun l => some l.ref)
  | [], need => by simp [consumeFrom_nil]
  | l :: rest, need => by
    by_cases h : 0 < need ∧ pred l ∧ 0 < l.remaining
    · rw [consumeFrom_cons_pos pred src l rest need h]
      have hfil : availPred pred l = true := by
        simp [availPred, h.2.1, h.2.2]
      rw [List.filter_cons_of_pos hfil]
      rcases consumeFrom_refs_prefix pred src rest (need - min need l.remaining)
        with ⟨t, ht⟩
      exact ⟨t, by simp [← ht]⟩
    · by_cases hq : availPred pred l = true
      · have hpredl : pred l = true := by
          simp [availPred] at hq; exact hq.1
        have hrem : 0 < l.remaining := by
          simp [availPred] at hq; exact hq.2
        have hneed : need ≤ 0 := by
          by_contra hlt
          exact h ⟨lt_of_not_le fun hh => hlt (by linarith), hpredl, hrem⟩
        rw [consumeFrom_cons_neg pred src l rest need h,
            consumeFrom_comps_nil pred src rest need hneed]
        exact List.nil_prefix
      · rw [consumeFrom_cons_neg pred src l rest need h,
            List.filter_cons_of_neg (by simpa using hq)]
        exact consumeFrom_refs_prefix pred src rest need

theorem consumeFrom_full_prefix (pred : Lot → Bool) (src : MatchSource) :
    ∀ (lots : List Lot) (need : ℚ),
      ((consumeFrom pred src lots need).1.dropLast.map MatchComponent.quantity) <+:
        ((lots.filter (availPred pred)).map Lot.remaining)
  | [], need => by simp [consumeFrom_nil]
  | l :: rest, need => by
    by_cases h : 0 < need ∧ pred l ∧ 0 < l.remaining
    · rw [consumeFrom_cons_pos pred src l rest need h]
      dsimp only
      have hfil : availPred pred l = true := by
        simp [availPred, h.2.1, h.2.2]
      rw [List.filter_cons_of_pos hfil]
      rcases hcs : (consumeFrom pred src rest (need - min need l.remaining)).1
        with - | ⟨c, cs'⟩
      · simp
      · have hpos : ¬ need - min need l.remaining ≤ 0 := by
          intro hle
          rw [consumeFrom_comps_nil pred src rest _ hle] at hcs
          exact List.cons_ne_nil c cs' hcs.symm
        have hmin : min need l.remaining = l.remaining := by
          rcases min_cases need l.remaining with ⟨he, hle⟩ | ⟨he, -⟩
          · exfalso; rw [he] at hpos; exact hpos (by linarith)
          · exact he
        rcases consumeFrom_full_prefix pred src rest (need - min need l.remaining)
          with ⟨t, ht⟩
        rw [hcs] at ht
        refine ⟨t, ?_⟩
        have hred : ((⟨src, min need l.remaining,
              l.matchCost (min need l.remaining), some l.ref⟩ :: c :: cs' :
                List MatchComponent).dropLast.map MatchComponent.quantity)
            = min need l.remaining :: ((c :: cs').dropLast.map MatchComponent.quantity) :=
          rfl
        rw [hred, List.map_cons, hmin, List.cons_append, ht]
    · by_cases hq : availPred pred l = true
      · have hpredl : pred l = true := by
          simp [availPred] at hq; exact hq.1
        have hrem : 0 < l.remaining := by
          simp [availPred] at hq; exact hq.2
        have hneed : need ≤ 0 := by
          by_contra hlt
          exact h ⟨lt_of_not_le fun hh => hlt (by linarith), hpredl, hrem⟩
        rw [consumeFrom_cons_neg pred src l rest need h,
            consumeFrom_comps_nil pred src rest need hneed]
        exact List.nil_prefix
      · rw [consumeFrom_cons_neg pred src l rest need h,
            List.filter_cons_of_neg (by simpa using hq)]
        exact consumeFrom_full_prefix pred src rest need

/-! ### Lemmas about matchDisposal -/

theorem matchDisposal_eq (lots : List Lot) (d : Transaction) :
    matchDisposal lots d =
      ((consumeFrom (sdPred d) MatchSource.SAME_DAY lots d.quantity).1 ++
         (consumeFrom (bbPred d) MatchSource.BED_AND_BREAKFAST
           (consumeFrom (sdPred d) MatchSource.SAME_DAY lots d.quantity).2.1
           (consumeFrom (sdPred d) MatchSource.SAME_DAY lots d.quantity).2.2).1,
       (consumeFrom (bbPred d) MatchSource.BED_AND_BREAKFAST
           (consumeFrom (sdPred d) MatchSource.SAME_DAY lots d.quantity).2.1
           (consumeFrom (sdPred d) MatchSource.SAME_DAY lots d.quantity).2.2).2.1,
       (consumeFrom (bbPred d) MatchSource.BED_AND_BREAKFAST
           (consumeFrom (sdPred d) MatchSource.SAME_DAY lots d.quantity).2.1
           (consumeFrom (sdPred d) MatchSource.SAME_DAY lots d.quantity).2.2).2.2) := by
  rcases h1 : consumeFrom (sdPred d) MatchSource.SAME_DAY lots d.quantity
    with ⟨a, b, c⟩
  rcases h2 : consumeFrom (bbPred d) MatchSource.BED_AND_BREAKFAST b c
    with ⟨e, f, g⟩
  simp only [matchDisposal, h1, h2]

theorem matchDisposal_sum (lots : List Lot) (d : Transaction) :
    ((matchDisposal lots d).1.map MatchComponent.quantity).sum
      = d.quantity - (matchDisposal lots d).2.2 := by
  rw [matchDisposal_eq]
  dsimp only
  rw [List.map_append, List.sum_append,
      consumeFrom_sum (sdPred d) MatchSource.SAME_DAY lots d.quantity,
      consumeFrom_sum (bbPred d) MatchSource.BED_AND_BREAKFAST _ _]
  ring

theorem matchDisposal_rem_nonneg (lots : List Lot) (d : Transaction)
    (h : 0 ≤ d.quantity) : 0 ≤ (matchDisposal lots d).2.2 := by
  rw [matchDisposal_eq]
  exact consumeFrom_need_nonneg _ _ _ _
    (consumeFrom_need_nonneg _ _ _ _ h)

theorem matchDisposal_lots_rel (lots : List Lot) (d : Transaction) :
    ∀ l' ∈ (matchDisposal lots d).2.1, ∃ l ∈ lots, lotEvolved l' l := by
  rw [matchDisposal_eq]
  intro l' hl'
  rcases consumeFrom_lots_rel (bbPred d) MatchSource.BED_AND_BREAKFAST _ _ l' hl'
    with ⟨l₁, hl₁, he₁⟩
  rcases consumeFrom_lots_rel (sdPred d) MatchSource.SAME_DAY lots d.quantity l₁ hl₁
    with ⟨l₀, hl₀, he₀⟩
  exact ⟨l₀, hl₀, lotEvolved_trans he₁ he₀⟩

/-! ### Lemmas about passOne -/

theorem lotEvolved_valid {l' l : Lot} (he : lotEvolved l' l) (hv : lotValid l) :
    lotValid l' := by
  refine ⟨he.2.2.2.2.2.2 hv.1, ?_, ?_, ?_⟩
  · rw [he.2.2.2.1]; exact hv.2.1
  · rw [he.2.2.2.2.1]; exact hv.2.2.1
  · rw [he.2.2.1]; exact hv.2.2.2

theorem lot_matchCost_nonneg {l : Lot} (hv : lotValid l) {q : ℚ} (hq : 0 ≤ q) :
    0 ≤ l.matchCost q := by
  unfold Lot.matchCost
  have h1 : 0 ≤ q * l.unitCost := mul_nonneg hq hv.2.1
  have h2 : 0 ≤ (q / l.originalQty) * l.fees :=
    mul_nonneg (div_nonneg hq hv.2.2.2) hv.2.2.1
  linarith

theorem passOne_pres :
    ∀ (itxns : List (Nat × Transaction)) (lots : List Lot),
      (∀ l ∈ lots, lotValid l) →
      (∀ p ∈ itxns, 0 ≤ p.2.quantity) →
      (∀ pre ∈ (passOne itxns lots).1,
          0 ≤ pre.poolNeed ∧
          (pre.comps.map MatchComponent.quantity).sum
            = pre.tx.quantity - pre.poolNeed) ∧
      (∀ l ∈ (passOne itxns lots).2, lotValid l)
  | [], lots => by
    intro hl _
    exact ⟨by simp [passOne], by simpa [passOne] using hl⟩
  | (i, t) :: rest, lots => by
    intro hl hq
    have hqt : 0 ≤ t.quantity := hq (i, t) (List.mem_cons_self _ _)
    have hqrest : ∀ p ∈ rest, 0 ≤ p.2.quantity :=
      fun p hp => hq p (List.mem_cons_of_mem _ hp)
    by_cases hk : t.kind == TxKind.disposal
    · rcases hmd : matchDisposal lots t with ⟨comps, lots', rem⟩
      have hstep : passOne ((i, t) :: rest) lots =
          (⟨i, t, comps, rem⟩ :: (passOne rest lots').1,
           (passOne rest lots').2) := by
        rcases hrec : passOne rest lots' with ⟨ps, lotsF⟩
        simp only [passOne, hk, if_pos, hmd, hrec]
      have hl' : ∀ l ∈ lots', lotValid l := by
        intro l' hl'
        have := matchDisposal_lots_rel lots t l' (by rw [hmd]; exact hl')
        rcases this with ⟨l₀, hl₀, he⟩
        exact lotEvolved_valid he (hl l₀ hl₀)
      have ih := passOne_pres rest lots' hl' hqrest
      rw [hstep]
      constructor
      · intro pre hpre
        rcases List.mem_cons.mp hpre with heq | hmem
        · subst heq
          constructor
          · have := matchDisposal_rem_nonneg lots t hqt
            rw [hmd] at this; exact this
          · have := matchDisposal_sum lots t
            rw [hmd] at this; exact this
        · exact ih.1 pre hmem
      · exact ih.2
    · have hstep : passOne ((i, t) :: rest) lots = passOne rest lots := by
        simp only [passOne, hk]
        rfl
      rw [hstep]
      exact passOne_pres rest lots hl hqrest

/-! ### Lemmas about the pool and pass two -/

theorem absorb_preserves (p : Section104Pool) (q c : ℚ)
    (hq : 0 ≤ q) (hc : 0 ≤ c)
    (h1 : 0 ≤ p.aggregate_quantity) (h2 : 0 ≤ p.aggregate_cost) :
    0 ≤ (p.absorb q c).aggregate_quantity ∧ 0 ≤ (p.absorb q c).aggregate_cost :=
  ⟨add_nonneg h1 hq, add_nonneg h2 hc⟩

theorem withdraw_eq_none_iff (p : Section104Pool) (q : ℚ) :
    p.withdraw q = none ↔ p.aggregate_quantity < q := by
  unfold Section104Pool.withdraw
  split_ifs with h
  · constructor
    · intro hh; exact absurd hh (by simp)
    · intro hh; exact absurd h (not_le.mpr hh)
  · exact ⟨fun _ => not_le.mp h, fun _ => rfl⟩

theorem withdraw_some (p : Section104Pool) (q : ℚ) (p' : Section104Pool) (c : ℚ)
    (h : p.withdraw q = some (p', c)) :
    c = q * (p.aggregate_cost / p.aggregate_quantity) ∧
    p'.aggregate_quantity = p.aggregate_quantity - q ∧
    p'.aggregate_cost = p.aggregate_cost - c ∧
    q ≤ p.aggregate_quantity := by
  unfold Section104Pool.withdraw at h
  split_ifs at h with hle
  · simp only [Option.some.injEq, Prod.mk.injEq] at h
    rcases h with ⟨hp, hc⟩
    subst hc
    exact ⟨rfl, by rw [← hp], by rw [← hp], hle⟩

theorem withdraw_preserves (p : Section104Pool) (q : ℚ)
    (p' : Section104Pool) (c : ℚ) (hq : 0 ≤ q)
    (h1 : 0 ≤ p.aggregate_quantity) (h2 : 0 ≤ p.aggregate_cost)
    (h : p.withdraw q = some (p', c)) :
    (0 ≤ p'.aggregate_quantity ∧ 0 ≤ p'.aggregate_cost) ∧ 0 ≤ c := by
  rcases withdraw_some p q p' c h with ⟨hc, hpq, hpc, hle⟩
  have hcnn : 0 ≤ c := by
    rw [hc]; exact mul_nonneg hq (div_nonneg h2 h1)
  refine ⟨⟨?_, ?_⟩, hcnn⟩
  · rw [hpq]; linarith
  · rw [hpc]
    rcases eq_or_lt_of_le h1 with hz | hpos
    · have hq0 : q = 0 := le_antisymm (by rw [hz]; exact hle) hq
      rw [hc, hq0]
      simpa using h2
    · have : c ≤ p.aggregate_cost := by
        rw [hc]
        calc q * (p.aggregate_cost / p.aggregate_quantity)
            ≤ p.aggregate_quantity * (p.aggregate_cost / p.aggregate_quantity) :=
              mul_le_mul_of_nonneg_right hle (div_nonneg h2 h1)
          _ = p.aggregate_cost := by
              rw [mul_comm]
              exact div_mul_cancel₀ _ (ne_of_gt hpos)
      linarith

theorem mergeEvents_mem :
    ∀ (ls : List Lot) (ps : List PreMatch), ∀ ev ∈ mergeEvents ls ps,
      (∃ l ∈ ls, ev = PoolEvent.absorbEv l) ∨ (∃ p ∈ ps, ev = PoolEvent.dispEv p)
  | [], ps => by
    intro ev hev
    simp only [mergeEvents, List.mem_map] at hev
    rcases hev with ⟨p, hp, rfl⟩
    exact Or.inr ⟨p, hp, rfl⟩
  | l :: ls, ps => by
    intro ev hev
    rw [mergeEvents] at hev
    rcases List.mem_append.mp hev with hhead | htail
    · rcases List.mem_map.mp hhead with ⟨p, hp, rfl⟩
      exact Or.inr ⟨p, (List.takeWhile_sublist _).mem hp, rfl⟩
    · rcases List.mem_cons.mp htail with heq | hmem
      · exact Or.inl ⟨l, List.mem_cons_self _ _, heq⟩
      · rcases mergeEvents_mem ls _ ev hmem with ⟨l₀, hl₀, he⟩ | ⟨p₀, hp₀, he⟩
        · exact Or.inl ⟨l₀, List.mem_cons_of_mem _ hl₀, he⟩
        · exact Or.inr ⟨p₀, (List.dropWhile_sublist _).mem hp₀, he⟩

theorem passTwo_sum :
    ∀ (events : List PoolEvent) (pool : Section104Pool)
      (rs : List DisposalResult) (pf : Section104Pool),
      passTwo events pool = Except.ok (rs, pf) →
      (∀ pre, PoolEvent.dispEv pre ∈ events →
        0 ≤ pre.poolNeed ∧
        (pre.comps.map MatchComponent.quantity).sum
          = pre.tx.quantity - pre.poolNeed) →
      ∀ r ∈ rs,
        (r.record.components.map MatchComponent.quantity).sum = r.tx.quantity
  | [], pool => by
    intro rs pf hok _
    simp only [passTwo, Except.ok.injEq, Prod.mk.injEq] at hok
    rw [← hok.1]
    simp
  | PoolEvent.absorbEv l :: rest, pool => by
    intro rs pf hok hpre
    rw [passTwo] at hok
    exact passTwo_sum rest _ rs pf hok
      (fun pre hp => hpre pre (List.mem_cons_of_mem _ hp))
  | PoolEvent.dispEv pre :: rest, pool => by
    intro rs pf hok hpre
    have hprops := hpre pre (List.mem_cons_self _ _)
    rw [passTwo] at hok
    split_ifs at hok with hpos
    · split at hok
      · exact absurd hok (by simp)
      · rename_i pool' c hw
        split at hok
        · exact absurd hok (by simp)
        · rename_i rs' pf' hrec
          simp only [Except.ok.injEq, Prod.mk.injEq] at hok
          rw [← hok.1]
          intro r hr
          rcases List.mem_cons.mp hr with heq | hmem
          · subst heq
            simp only [calcGainLoss, List.map_append, List.sum_append,
              List.map_cons, List.sum_cons, List.map_nil, List.sum_nil]
            rw [hprops.2]
            ring
          · exact passTwo_sum rest pool' rs' pf' hrec
              (fun q hq => hpre q (List.mem_cons_of_mem _ hq)) r hmem
    · split at hok
      · exact absurd hok (by simp)
      · rename_i rs' pf' hrec
        simp only [Except.ok.injEq, Prod.mk.injEq] at hok
        rw [← hok.1]
        intro r hr
        rcases List.mem_cons.mp hr with heq | hmem
        · subst heq
          have hz : pre.poolNeed = 0 :=
            le_antisymm (not_lt.mp hpos) hprops.1
          simp only [calcGainLoss]
          rw [hprops.2, hz]
          ring
        · exact passTwo_sum rest pool rs' pf' hrec
            (fun q hq => hpre q (List.mem_cons_of_mem _ hq)) r hmem

theorem passTwoStates_nonneg :
    ∀ (events : List PoolEvent) (pool : Section104Pool),
      0 ≤ pool.aggregate_quantity → 0 ≤ pool.aggregate_cost →
      (∀ l, PoolEvent.absorbEv l ∈ events →
        0 ≤ l.remaining ∧ 0 ≤ l.matchCost l.remaining) →
      (∀ pre, PoolEvent.dispEv pre ∈ events → 0 ≤ pre.poolNeed) →
      ∀ st ∈ passTwoStates events pool,
        0 ≤ st.aggregate_quantity ∧ 0 ≤ st.aggregate_cost
  | [], pool => by
    intro h1 h2 _ _ st hst
    simp only [passTwoStates, List.mem_singleton] at hst
    subst hst
    exact ⟨h1, h2⟩
  | PoolEvent.absorbEv l :: rest, pool => by
    intro h1 h2 habs hdisp st hst
    rw [passTwoStates] at hst
    rcases List.mem_cons.mp hst with heq | hmem
    · subst heq; exact ⟨h1, h2⟩
    · have hl := habs l (List.mem_cons_self _ _)
      have hp := absorb_preserves pool l.remaining (l.matchCost l.remaining)
        hl.1 hl.2 h1 h2
      exact passTwoStates_nonneg rest _ hp.1 hp.2
        (fun l₀ h₀ => habs l₀ (List.mem_cons_of_mem _ h₀))
        (fun p₀ h₀ => hdisp p₀ (List.mem_cons_of_mem _ h₀)) st hmem
  | PoolEvent.dispEv pre :: rest, pool => by
    intro h1 h2 habs hdisp st hst
    rw [passTwoStates] at hst
    split_ifs at hst with hpos
    · split at hst
      · simp only [List.mem_singleton] at hst
        subst hst; exact ⟨h1, h2⟩
      · rename_i pool' c hw
        rcases List.mem_cons.mp hst with heq | hmem
        · subst heq; exact ⟨h1, h2⟩
        · have hp := withdraw_preserves pool pre.poolNeed pool' c
            (hdisp pre (List.mem_cons_self _ _)) h1 h2 hw
          exact passTwoStates_nonneg rest pool' hp.1.1 hp.1.2
            (fun l₀ h₀ => habs l₀ (List.mem_cons_of_mem _ h₀))
            (fun p₀ h₀ => hdisp p₀ (List.mem_cons_of_mem _ h₀)) st hmem
    · rcases List.mem_cons.mp hst with heq | hmem
      · subst heq; exact ⟨h1, h2⟩
      · exact passTwoStates_nonneg rest pool h1 h2
          (fun l₀ h₀ => habs l₀ (List.mem_cons_of_mem _ h₀))
          (fun p₀ h₀ => hdisp p₀ (List.mem_cons_of_mem _ h₀)) st hmem

/-! ### Lemmas about the CorporateActionProcessor -/

theorem adjustBy_valid {r : ℚ} (hr : 0 < r) (c : Nat) {t : Transaction}
    (hv : ValidTx t) : ValidTx (adjustBy r c t) := by
  unfold adjustBy
  split_ifs with hd
  · exact ⟨mul_nonneg hv.1 (le_of_lt hr), div_nonneg hv.2.1 (le_of_lt hr),
      hv.2.2.1, hv.2.2.2⟩
  · exact hv

theorem adjustBy_basis {r : ℚ} (hr : r ≠ 0) (c : Nat) (t : Transaction) :
    (adjustBy r c t).quantity * (adjustBy r c t).unitPrice
      = t.quantity * t.unitPrice := by
  unfold adjustBy
  split_ifs with hd
  · field_simp
    ring
  · rfl

theorem applyCAAux_valid :
    ∀ (txns acc : List Transaction),
      (∀ t ∈ acc, ValidTx t) → (∀ t ∈ txns, ValidTx t) →
      ∀ out, applyCAAux acc txns = Except.ok out → ∀ t ∈ out, ValidTx t
  | [], acc => by
    intro hacc _ out hout
    simp only [applyCAAux, Except.ok.injEq] at hout
    subst hout
    exact hacc
  | t :: rest, acc => by
    intro hacc htx out hout
    have hvt : ValidTx t := htx t (List.mem_cons_self _ _)
    have hrest : ∀ u ∈ rest, ValidTx u :=
      fun u hu => htx u (List.mem_cons_of_mem _ hu)
    rw [applyCAAux] at hout
    split at hout
    · rename_i r hk hca
      have hr : 0 < r := by
        have := hvt.2.2.2
        rw [ratioOk, hca] at this
        exact of_decide_eq_true this
      refine applyCAAux_valid rest _ ?_ hrest out hout
      intro u hu
      rcases List.mem_map.mp hu with ⟨u₀, hu₀, rfl⟩
      exact adjustBy_valid hr _ (hacc u₀ hu₀)
    · rename_i r hk hca
      have hr : 0 < r := by
        have := hvt.2.2.2
        rw [ratioOk, hca] at this
        exact of_decide_eq_true this
      refine applyCAAux_valid rest _ ?_ hrest out hout
      intro u hu
      rcases List.mem_map.mp hu with ⟨u₀, hu₀, rfl⟩
      exact adjustBy_valid (inv_pos.mpr hr) _ (hacc u₀ hu₀)
    · exact absurd hout (by simp)
    · refine applyCAAux_valid rest _ ?_ hrest out hout
      intro u hu
      rcases List.mem_append.mp hu with h₀ | h₀
      · exact hacc u h₀
      · rcases List.mem_singleton.mp h₀ with rfl
        exact hvt

theorem applyCAAux_basis :
    ∀ (txns acc : List Transaction),
      (∀ t ∈ txns, ratioOk t = true) →
      ∀ out, applyCAAux acc txns = Except.ok out →
      out.map basis = acc.map basis ++
        ((txns.filter fun t => !(t.kind == TxKind.corporateAction)).map basis)
  | [], acc => by
    intro _ out hout
    simp only [applyCAAux, Except.ok.injEq] at hout
    subst hout
    simp
  | t :: rest, acc => by
    intro hok out hout
    have hokt : ratioOk t = true := hok t (List.mem_cons_self _ _)
    have hokrest : ∀ u ∈ rest, ratioOk u = true :=
      fun u hu => hok u (List.mem_cons_of_mem _ hu)
    rw [applyCAAux] at hout
    split at hout
    · rename_i r hk hca
      have hr : r ≠ 0 := by
        rw [ratioOk, hca] at hokt
        exact ne_of_gt (of_decide_eq_true hokt)
      have ih := applyCAAux_basis rest _ hokrest out hout
      rw [ih]
      have hmap : (acc.map (adjustBy r t.date)).map basis = acc.map basis := by
        rw [List.map_map]
        refine List.map_congr_left ?_
        intro u _
        exact adjustBy_basis hr t.date u
      rw [hmap, List.filter_cons_of_neg (by simp [hk])]
    · rename_i r hk hca
      have hr : r⁻¹ ≠ 0 := by
        rw [ratioOk, hca] at hokt
        exact inv_ne_zero (ne_of_gt (of_decide_eq_true hokt))
      have ih := applyCAAux_basis rest _ hokrest out hout
      rw [ih]
      have hmap : (acc.map (adjustBy r⁻¹ t.date)).map basis = acc.map basis := by
        rw [List.map_map]
        refine List.map_congr_left ?_
        intro u _
        exact adjustBy_basis hr t.date u
      rw [hmap, List.filter_cons_of_neg (by simp [hk])]
    · exact absurd hout (by simp)
    · rename_i hno hn2 hn3
      have ih := applyCAAux_basis rest _ hokrest out hout
      rw [ih]
      have hk : ¬ (t.kind == TxKind.corporateAction) = true := by
        intro hkk
        exact hno (eq_of_beq hkk)
      rw [List.filter_cons_of_pos (by simpa using hk)]
      simp

theorem applyCAAux_bad :
    ∀ (txns acc : List Transaction),
      (∃ t ∈ txns, badCA t) →
      ∃ s i, applyCAAux acc txns = Except.error (CGTError.UnsupportedCorporateAction s i)
  | [], acc => by
    rintro ⟨t, ht, -⟩
    exact absurd ht (List.not_mem_nil t)
  | t :: rest, acc => by
    rintro ⟨u, hu, hbad⟩
    rw [applyCAAux]
    split
    · rename_i r hk hca
      refine applyCAAux_bad rest _ ⟨u, ?_, hbad⟩
      rcases List.mem_cons.mp hu with rfl | hmem
      · exfalso
        rcases hbad with ⟨-, hb2 | hb2⟩ <;> rw [hca] at hb2 <;>
          exact absurd hb2 (by simp)
      · exact hmem
    · rename_i r hk hca
      refine applyCAAux_bad rest _ ⟨u, ?_, hbad⟩
      rcases List.mem_cons.mp hu with rfl | hmem
      · exfalso
        rcases hbad with ⟨-, hb2 | hb2⟩ <;> rw [hca] at hb2 <;>
          exact absurd hb2 (by simp)
      · exact hmem
    · exact ⟨t.security, t.date, rfl⟩
    · rename_i hno hn2 hn3
      refine applyCAAux_bad rest _ ⟨u, ?_, hbad⟩
      rcases List.mem_cons.mp hu with rfl | hmem
      · exact (hno hbad.1).elim
      · exact hmem

/-! ### Assembling the per-security pipeline -/

theorem mem_enum_snd {α : Type} {l : List α} {p : Nat × α} (h : p ∈ l.enum) :
    p.2 ∈ l := by
  rw [List.mem_enum_iff_getElem?] at h
  exact List.getElem?_mem h

theorem buildLots_valid (itxns : List (Nat × Transaction))
    (h : ∀ p ∈ itxns, ValidTx p.2) : ∀ l ∈ buildLots itxns, lotValid l := by
  intro l hl
  rcases List.mem_filterMap.mp hl with ⟨p, hp, hsome⟩
  split_ifs at hsome with hk
  simp only [Option.some.injEq] at hsome
  subst hsome
  have hv := h p hp
  exact ⟨hv.1, hv.2.1, hv.2.2.1, hv.1⟩

theorem sorted_valid (txns : List Transaction) (hv : ∀ t ∈ txns, ValidTx t) :
    ∀ t ∈ List.insertionSort txLE txns, ValidTx t := fun t ht =>
  hv t ((List.perm_insertionSort txLE txns).mem_iff.mp ht)

theorem adjusted_valid (txns adjusted : List Transaction)
    (hv : ∀ t ∈ txns, ValidTx t)
    (hadj : applyCorporateActions (List.insertionSort txLE txns)
      = Except.ok adjusted) :
    ∀ t ∈ adjusted, ValidTx t :=
  applyCAAux_valid (List.insertionSort txLE txns) [] (by simp)
    (sorted_valid txns hv) adjusted hadj

theorem passOne_facts (adjusted : List Transaction)
    (pres : List PreMatch) (finalLots : List Lot)
    (hp : passOne adjusted.enum (buildLots adjusted.enum) = (pres, finalLots))
    (hv : ∀ t ∈ adjusted, ValidTx t) :
    (∀ pre ∈ pres,
        0 ≤ pre.poolNeed ∧
        (pre.comps.map MatchComponent.quantity).sum
          = pre.tx.quantity - pre.poolNeed) ∧
    (∀ l ∈ finalLots, lotValid l) := by
  have hlots : ∀ l ∈ buildLots adjusted.enum, lotValid l :=
    buildLots_valid _ (fun p hp₀ => hv p.2 (mem_enum_snd hp₀))
  have hq : ∀ p ∈ adjusted.enum, 0 ≤ p.2.quantity :=
    fun p hp₀ => (hv p.2 (mem_enum_snd hp₀)).1
  have h := passOne_pres adjusted.enum (buildLots adjusted.enum) hlots hq
  rw [hp] at h
  exact h

/-! ### The claims -/

/-- C1: for every disposal processed without a fatal error, the sum of
matched quantities across all of the disposal's MatchRecord components
(same-day, bed-and-breakfast, and pool) equals the disposal's quantity
exactly -- no leftover and no overmatch. -/
theorem c1_matched_quantities_sum (txns : List Transaction)
    (hv : ∀ t ∈ txns, ValidTx t)
    (res : List DisposalResult × Section104Pool)
    (h : processSecurity txns = Except.ok res) :
    ∀ r ∈ res.1,
      (r.record.components.map MatchComponent.quantity).sum = r.tx.quantity := by
  rw [processSecurity] at h
  split at h
  · exact absurd h (by simp)
  · rename_i adjusted hadj
    split at h
    rename_i pres finalLots hpass
    have hfacts := passOne_facts adjusted pres finalLots hpass
      (adjusted_valid txns adjusted hv hadj)
    rcases res with ⟨rs, pf⟩
    intro r hr
    refine passTwo_sum (mergeEvents finalLots pres) Section104Pool.empty rs pf
      h ?_ r hr
    intro pre hpre
    rcases mergeEvents_mem finalLots pres _ hpre with ⟨l₀, -, he⟩ | ⟨p₀, hp₀, he⟩
    · exact absurd he (by simp)
    · cases he
      exact hfacts.1 pre hp₀

/-- Witness for C1 at the concrete mixed-tier input exMixed. -/
theorem c1_matched_quantities_sum_witness :
    (∀ t ∈ exMixed, ValidTx t) ∧
    (processSecurity exMixed = Except.ok exMixedRes) ∧
    (∀ r ∈ exMixedRes.1,
      (r.record.components.map MatchComponent.quantity).sum = r.tx.quantity) :=
  ⟨by decide, by decide,
   c1_matched_quantities_sum exMixed (by decide) exMixedRes (by decide)⟩

/-- C2: the Section104Pool invariant -- aggregate quantity ≥ 0 and aggregate
cost ≥ 0 -- is preserved by absorb and by every successful withdraw, and it
holds at every point of a security's timeline (every pool state observed
during pass two, starting from the empty pool). -/
theorem c2_pool_invariant :
    (∀ (p : Section104Pool) (q c : ℚ), 0 ≤ q → 0 ≤ c →
      0 ≤ p.aggregate_quantity → 0 ≤ p.aggregate_cost →
      0 ≤ (p.absorb q c).aggregate_quantity ∧
        0 ≤ (p.absorb q c).aggregate_cost) ∧
    (∀ (p : Section104Pool) (q : ℚ) (p' : Section104Pool) (c : ℚ), 0 ≤ q →
      0 ≤ p.aggregate_quantity → 0 ≤ p.aggregate_cost →
      p.withdraw q = some (p', c) →
      0 ≤ p'.aggregate_quantity ∧ 0 ≤ p'.aggregate_cost) ∧
    (∀ txns : List Transaction, (∀ t ∈ txns, ValidTx t) →
      ∀ st ∈ processSecurityPools txns,
        0 ≤ st.aggregate_quantity ∧ 0 ≤ st.aggregate_cost) := by
  refine ⟨fun p q c hq hc h1 h2 => absorb_preserves p q c hq hc h1 h2,
    fun p q p' c hq h1 h2 h => (withdraw_preserves p q p' c hq h1 h2 h).1,
    ?_⟩
  intro txns hv st hst
  rw [processSecurityPools] at hst
  split at hst
  · exact absurd hst (List.not_mem_nil st)
  · rename_i adjusted hadj
    split at hst
    rename_i pres finalLots hpass
    have hfacts := passOne_facts adjusted pres finalLots hpass
      (adjusted_valid txns adjusted hv hadj)
    refine passTwoStates_nonneg _ Section104Pool.empty (le_refl 0) (le_refl 0)
      ?_ ?_ st hst
    · intro l hl
      rcases mergeEvents_mem finalLots pres _ hl with ⟨l₀, hl₀, he⟩ | ⟨p₀, -, he⟩
      · cases he
        have hlv := hfacts.2 l hl₀
        exact ⟨hlv.1, lot_matchCost_nonneg hlv hlv.1⟩
      · exact absurd he (by simp)
    · intro pre hpre
      rcases mergeEvents_mem finalLots pres _ hpre with ⟨l₀, -, he⟩ | ⟨p₀, hp₀, he⟩
      · exact absurd he (by simp)
      · cases he
        exact (hfacts.1 pre hp₀).1

/-- Witness for C2: a concrete absorb, a concrete withdraw, and the full
pool-state trace of the concrete mixed-tier input. -/
theorem c2_pool_invariant_witness :
    (0 ≤ ((⟨3, 30⟩ : Section104Pool).absorb 5 10).aggregate_quantity ∧
      0 ≤ ((⟨3, 30⟩ : Section104Pool).absorb 5 10).aggregate_cost) ∧
    (0 ≤ (⟨60, 900⟩ : Section104Pool).aggregate_quantity ∧
      0 ≤ (⟨60, 900⟩ : Section104Pool).aggregate_cost) ∧
    (∀ st ∈ processSecurityPools exMixed,
      0 ≤ st.aggregate_quantity ∧ 0 ≤ st.aggregate_cost) :=
  ⟨c2_pool_invariant.1 ⟨3, 30⟩ 5 10 (by decide) (by decide) (by decide)
      (by decide),
   c2_pool_invariant.2.1 ⟨100, 1500⟩ 40 ⟨60, 900⟩ 600 (by decide) (by decide)
      (by decide) (by decide),
   c2_pool_invariant.2.2 exMixed (by decide)⟩

/-- C3: the matching tiers are applied in strict priority order: the sums of
the same-day and bed-and-breakfast components and the remaining pool quantity
partition the disposal's quantity, each later tier consuming only what
earlier tiers left; whenever bed-and-breakfast or pool quantity is used,
every same-day candidate is exhausted, and whenever pool quantity is used,
every bed-and-breakfast candidate is exhausted as well. -/
theorem c3_tier_priority (lots : List Lot) (d : Transaction)
    (comps : List MatchComponent) (lots' : List Lot) (rem : ℚ)
    (h : matchDisposal lots d = (comps, lots', rem))
    (hl : ∀ l ∈ lots, 0 ≤ l.remaining) (hd : 0 ≤ d.quantity) :
    ((comps.filter fun c => c.source == MatchSource.SAME_DAY).map
        MatchComponent.quantity).sum
      + ((comps.filter fun c => c.source == MatchSource.BED_AND_BREAKFAST).map
          MatchComponent.quantity).sum
      + rem = d.quantity ∧
    0 ≤ rem ∧
    ((0 < ((comps.filter fun c =>
          c.source == MatchSource.BED_AND_BREAKFAST).map
            MatchComponent.quantity).sum ∨ 0 < rem) →
      ∀ l ∈ lots', l.date = d.date → l.remaining = 0) ∧
    (0 < rem →
      ∀ l ∈ lots', (d.date < l.date ∧ l.date ≤ d.date + 30) →
        l.remaining = 0) := by
  rcases hsd : consumeFrom (sdPred d) MatchSource.SAME_DAY lots d.quantity
    with ⟨sdC, lots1, rem1⟩
  rcases hbb : consumeFrom (bbPred d) MatchSource.BED_AND_BREAKFAST lots1 rem1
    with ⟨bbC, lotsB, remB⟩
  rw [matchDisposal_eq, hsd] at h
  dsimp only at h
  rw [hbb] at h
  dsimp only at h
  rcases h with ⟨rfl, rfl, rfl⟩
  have hsdall : ∀ c ∈ sdC, c.source = MatchSource.SAME_DAY := by
    intro c hc
    have := consumeFrom_comps (sdPred d) MatchSource.SAME_DAY lots d.quantity c
      (by rw [hsd]; exact hc)
    exact this.1
  have hbball : ∀ c ∈ bbC, c.source = MatchSource.BED_AND_BREAKFAST := by
    intro c hc
    have := consumeFrom_comps (bbPred d) MatchSource.BED_AND_BREAKFAST lots1
      rem1 c (by rw [hbb]; exact hc)
    exact this.1
  have hfsd : ((sdC ++ bbC).filter fun c =>
      c.source == MatchSource.SAME_DAY) = sdC := by
    rw [List.filter_append, List.filter_eq_self.mpr
        (fun c hc => by rw [hsdall c hc]; rfl),
      List.filter_eq_nil_iff.mpr
        (fun c hc => by rw [hbball c hc]; simp), List.append_nil]
  have hfbb : ((sdC ++ bbC).filter fun c =>
      c.source == MatchSource.BED_AND_BREAKFAST) = bbC := by
    rw [List.filter_append, List.filter_eq_nil_iff.mpr
        (fun c hc => by rw [hsdall c hc]; simp),
      List.filter_eq_self.mpr
        (fun c hc => by rw [hbball c hc]; rfl), List.nil_append]
  have hsum1 : (sdC.map MatchComponent.quantity).sum = d.quantity - rem1 := by
    have := consumeFrom_sum (sdPred d) MatchSource.SAME_DAY lots d.quantity
    rw [hsd] at this; exact this
  have hsum2 : (bbC.map MatchComponent.quantity).sum = rem1 - rem := by
    have := consumeFrom_sum (bbPred d) MatchSource.BED_AND_BREAKFAST lots1 rem1
    rw [hbb] at this; exact this
  have hrem1nn : 0 ≤ rem1 := by
    have := consumeFrom_need_nonneg (sdPred d) MatchSource.SAME_DAY lots
      d.quantity hd
    rw [hsd] at this; exact this
  have hremnn : 0 ≤ rem := by
    have := consumeFrom_need_nonneg (bbPred d) MatchSource.BED_AND_BREAKFAST
      lots1 rem1 hrem1nn
    rw [hbb] at this; exact this
  have hremle : rem ≤ rem1 := by
    have := consumeFrom_need_mono (bbPred d) MatchSource.BED_AND_BREAKFAST
      lots1 rem1
    rw [hbb] at this; exact this
  have hlots1nn : ∀ l₁ ∈ lots1, 0 ≤ l₁.remaining := by
    intro l₁ hl₁
    rcases consumeFrom_lots_rel (sdPred d) MatchSource.SAME_DAY lots d.quantity
      l₁ (by rw [hsd]; exact hl₁) with ⟨l₀, hl₀, he⟩
    exact he.2.2.2.2.2.2 (hl l₀ hl₀)
  have hlots'rel : ∀ l₂ ∈ lots', ∃ l₁ ∈ lots1, lotEvolved l₂ l₁ := by
    intro l₂ hl₂
    have := consumeFrom_lots_rel (bbPred d) MatchSource.BED_AND_BREAKFAST
      lots1 rem1 l₂ (by rw [hbb]; exact hl₂)
    exact this
  refine ⟨?_, hremnn, ?_, ?_⟩
  · rw [hfsd, hfbb, hsum1, hsum2]; ring
  · intro hused l hl₂ hdate
    have hrem1pos : 0 < rem1 := by
      rcases hused with hbbpos | hrempos
      · rw [hfbb, hsum2] at hbbpos; linarith
      · linarith
    have hexh := consumeFrom_exhaust (sdPred d) MatchSource.SAME_DAY lots
      d.quantity
    rw [hsd] at hexh
    rcases hlots'rel l hl₂ with ⟨l₁, hl₁, he⟩
    have hl₁date : l₁.date = d.date := by rw [← he.2.1]; exact hdate
    have h₁z : l₁.remaining ≤ 0 :=
      hexh hrem1pos l₁ hl₁ (by simp [sdPred, hl₁date])
    have : l.remaining ≤ l₁.remaining := he.2.2.2.2.2.1
    have hnn : 0 ≤ l.remaining :=
      he.2.2.2.2.2.2 (hlots1nn l₁ hl₁)
    linarith
  · intro hrempos l hl₂ hwin
    have hexh := consumeFrom_exhaust (bbPred d) MatchSource.BED_AND_BREAKFAST
      lots1 rem1
    rw [hbb] at hexh
    have hz : l.remaining ≤ 0 :=
      hexh hrempos l hl₂
        (by simp only [bbPred, Bool.and_eq_true, decide_eq_true_eq]
            exact ⟨hwin.1, hwin.2⟩)
    have hnn : 0 ≤ l.remaining := by
      rcases hlots'rel l hl₂ with ⟨l₁, hl₁, he⟩
      exact he.2.2.2.2.2.2 (hlots1nn l₁ hl₁)
    linarith

/-- Witness for C3 at the concrete lot list exLots and disposal exDisp:
30 same-day plus 40 bed-and-breakfast plus 30 pool equals the disposed 100,
and both earlier tiers are exhausted. -/
theorem c3_tier_priority_witness :
    (([⟨MatchSource.SAME_DAY, 30, 240, some 1⟩,
       ⟨MatchSource.BED_AND_BREAKFAST, 40, 360, some 3⟩].filter fun c =>
          c.source == MatchSource.SAME_DAY).map MatchComponent.quantity).sum
      + (([⟨MatchSource.SAME_DAY, 30, 240, some 1⟩,
           ⟨MatchSource.BED_AND_BREAKFAST, 40, 360, some 3⟩].filter fun c =>
            c.source == MatchSource.BED_AND_BREAKFAST).map
            MatchComponent.quantity).sum
      + 30 = exDisp.quantity ∧
    0 ≤ (30 : ℚ) ∧
    ((0 < (([⟨MatchSource.SAME_DAY, 30, 240, some 1⟩,
         ⟨MatchSource.BED_AND_BREAKFAST, 40, 360, some 3⟩].filter fun c =>
          c.source == MatchSource.BED_AND_BREAKFAST).map
          MatchComponent.quantity).sum ∨ 0 < (30 : ℚ)) →
      ∀ l ∈ [⟨1, 5, 30, 0, 8, 0⟩, ⟨3, 6, 40, 0, 9, 0⟩,
        (⟨0, 0, 100, 100, 7, 0⟩ : Lot)], l.date = exDisp.date →
        l.remaining = 0) ∧
    (0 < (30 : ℚ) →
      ∀ l ∈ [⟨1, 5, 30, 0, 8, 0⟩, ⟨3, 6, 40, 0, 9, 0⟩,
        (⟨0, 0, 100, 100, 7, 0⟩ : Lot)],
        (exDisp.date < l.date ∧ l.date ≤ exDisp.date + 30) →
        l.remaining = 0) :=
  c3_tier_priority exLots exDisp
    [⟨MatchSource.SAME_DAY, 30, 240, some 1⟩,
     ⟨MatchSource.BED_AND_BREAKFAST, 40, 360, some 3⟩]
    [⟨1, 5, 30, 0, 8, 0⟩, ⟨3, 6, 40, 0, 9, 0⟩, ⟨0, 0, 100, 100, 7, 0⟩]
    30 (by decide) (by decide) (by decide)

/-- C4: withdraw fails exactly when the pool holds less than the requested
quantity; a successful withdrawal removes cost
quantity × (aggregate cost / aggregate quantity) taken at the moment of
withdrawal and decrements the aggregate quantity by the requested quantity;
a withdrawal of zero from a pool whose quantity is exactly zero is a no-op,
not an error. -/
theorem c4_withdraw_contract :
    (∀ (p : Section104Pool) (q : ℚ),
      p.withdraw q = none ↔ p.aggregate_quantity < q) ∧
    (∀ (p : Section104Pool) (q : ℚ) (p' : Section104Pool) (c : ℚ),
      p.withdraw q = some (p', c) →
      c = q * (p.aggregate_cost / p.aggregate_quantity) ∧
      p'.aggregate_quantity = p.aggregate_quantity - q ∧
      p'.aggregate_cost = p.aggregate_cost - c) ∧
    (∀ p : Section104Pool, p.aggregate_quantity = 0 →
      p.withdraw 0 = some (p, 0)) := by
  refine ⟨withdraw_eq_none_iff, ?_, ?_⟩
  · intro p q p' c h
    have := withdraw_some p q p' c h
    exact ⟨this.1, this.2.1, this.2.2.1⟩
  · intro p hz
    unfold Section104Pool.withdraw
    rw [if_pos (by rw [hz])]
    rcases p with ⟨pq, pc⟩
    simp only at hz
    subst hz
    norm_num

/-- Witness for C4: a failing withdrawal, a successful one, and the
zero-from-empty no-op, all at concrete pools. -/
theorem c4_withdraw_contract_witness :
    ((⟨100, 1500⟩ : Section104Pool).withdraw 200 = none ↔
      (100 : ℚ) < 200) ∧
    ((600 : ℚ) = 40 * ((1500 : ℚ) / 100) ∧
      (60 : ℚ) = 100 - 40 ∧ (900 : ℚ) = 1500 - 600) ∧
    ((⟨0, 7⟩ : Section104Pool).withdraw 0 = some (⟨0, 7⟩, 0)) :=
  ⟨c4_withdraw_contract.1 ⟨100, 1500⟩ 200,
   c4_withdraw_contract.2.1 ⟨100, 1500⟩ 40 ⟨60, 900⟩ 600 (by decide),
   c4_withdraw_contract.2.2 ⟨0, 7⟩ (by decide)⟩

/-- C5: the bed-and-breakfast tier matches only lots dated strictly after
the disposal and within 30 calendar days inclusive; the matched lot
references are a prefix of the available qualifying lots in list order (the
engine keeps the lot list date-sorted, so this is ascending date order,
earliest first); every matched lot except possibly the last is consumed in
full (the quantities of all but the last component are exactly the
qualifying lots' remaining quantities, in order); and a disposal fully
covered by a bed-and-breakfast acquisition leaves the pool untouched, as in
the concrete run on exC5. -/
theorem c5_bnb_tier (d : Transaction) (lots : List Lot) (need : ℚ)
    (cs : List MatchComponent) (lots' : List Lot) (rem : ℚ)
    (h : consumeFrom (bbPred d) MatchSource.BED_AND_BREAKFAST lots need
      = (cs, lots', rem)) :
    (∀ c ∈ cs, ∃ l ∈ lots, c.lotRef = some l.ref ∧
      d.date < l.date ∧ l.date ≤ d.date + 30) ∧
    (cs.map MatchComponent.lotRef <+:
      ((lots.filter (availPred (bbPred d))).map fun l => some l.ref)) ∧
    (cs.dropLast.map MatchComponent.quantity <+:
      ((lots.filter (availPred (bbPred d))).map Lot.remaining)) ∧
    processSecurity exC5 = Except.ok
      ([⟨⟨0, [⟨MatchSource.BED_AND_BREAKFAST, 50, 600, some 1⟩]⟩,
         ⟨1, 10, TxKind.disposal, 50, 30, 0, none⟩, 1500, 600, 900⟩],
       ⟨0, 0⟩) := by
  refine ⟨?_, ?_, ?_, by decide⟩
  · intro c hc
    have hcc := consumeFrom_comps (bbPred d) MatchSource.BED_AND_BREAKFAST
      lots need c (by rw [h]; exact hc)
    rcases hcc.2.2 with ⟨l, hl, href, hpred⟩
    simp only [bbPred, Bool.and_eq_true, decide_eq_true_eq] at hpred
    exact ⟨l, hl, href, hpred.1, hpred.2⟩
  · have hpre := consumeFrom_refs_prefix (bbPred d) MatchSource.BED_AND_BREAKFAST
      lots need
    rw [h] at hpre
    exact hpre
  · have hpre := consumeFrom_full_prefix (bbPred d) MatchSource.BED_AND_BREAKFAST
      lots need
    rw [h] at hpre
    exact hpre

/-- Witness for C5 at the concrete disposal exDisp over the lots exLots with
unmatched quantity 70 after same-day: the single bed-and-breakfast component
takes the day-6 lot. -/
theorem c5_bnb_tier_witness :
    (∀ c ∈ [(⟨MatchSource.BED_AND_BREAKFAST, 40, 360, some 3⟩ :
        MatchComponent)], ∃ l ∈ exLots, c.lotRef = some l.ref ∧
      exDisp.date < l.date ∧ l.date ≤ exDisp.date + 30) ∧
    (([(⟨MatchSource.BED_AND_BREAKFAST, 40, 360, some 3⟩ :
        MatchComponent)].map MatchComponent.lotRef) <+:
      ((exLots.filter (availPred (bbPred exDisp))).map fun l => some l.ref)) ∧
    (([(⟨MatchSource.BED_AND_BREAKFAST, 40, 360, some 3⟩ :
        MatchComponent)].dropLast.map MatchComponent.quantity) <+:
      ((exLots.filter (availPred (bbPred exDisp))).map Lot.remaining)) ∧
    processSecurity exC5 = Except.ok
      ([⟨⟨0, [⟨MatchSource.BED_AND_BREAKFAST, 50, 600, some 1⟩]⟩,
         ⟨1, 10, TxKind.disposal, 50, 30, 0, none⟩, 1500, 600, 900⟩],
       ⟨0, 0⟩) :=
  c5_bnb_tier exDisp exLots 70
    [⟨MatchSource.BED_AND_BREAKFAST, 40, 360, some 3⟩]
    [⟨1, 5, 30, 30, 8, 0⟩, ⟨3, 6, 40, 0, 9, 0⟩, ⟨0, 0, 100, 100, 7, 0⟩]
    30 (by decide)

/-- C6: a recognized corporate action with ratio r rewrites every
prior-dated transaction's quantity by factor r and unit price by factor 1/r,
leaving the cost basis (quantity × unit price) of every transaction exactly
unchanged through the whole processor (hence the basis of every lot and of
the pool derived from them); an unrecognized descriptor fails with
UnsupportedCorporateAction; concretely, a 2-for-1 split doubles the prior
acquisition's quantity and halves its unit price. -/
theorem c6_corporate_action (txns : List Transaction)
    (hok : ∀ t ∈ txns, ratioOk t = true)
    (out : List Transaction)
    (h : applyCorporateActions txns = Except.ok out) :
    (out.map basis = (txns.filter fun t =>
        !(t.kind == TxKind.corporateAction)).map basis) ∧
    (∀ r : ℚ, r ≠ 0 → ∀ (cutoff : Nat) (t : Transaction),
      basis (adjustBy r cutoff t) = basis t) ∧
    (∀ (r : ℚ) (cutoff : Nat) (t : Transaction), t.date < cutoff →
      (adjustBy r cutoff t).quantity = t.quantity * r ∧
      (adjustBy r cutoff t).unitPrice = t.unitPrice / r) ∧
    (∀ txns₂ : List Transaction, (∃ t ∈ txns₂, badCA t) →
      ∃ s i, applyCorporateActions txns₂
        = Except.error (CGTError.UnsupportedCorporateAction s i)) ∧
    applyCorporateActions exC6
      = Except.ok [⟨1, 1, TxKind.acquisition, 200, 5, 0, none⟩] := by
  refine ⟨?_, ?_, ?_, ?_, by decide⟩
  · have := applyCAAux_basis txns [] hok out h
    simpa using this
  · intro r hr cutoff t
    exact adjustBy_basis hr cutoff t
  · intro r cutoff t hdate
    unfold adjustBy
    rw [if_pos hdate]
    exact ⟨rfl, rfl⟩
  · intro txns₂ hbad
    exact applyCAAux_bad txns₂ [] hbad

/-- Witness for C6 at the concrete one-acquisition-one-split input exC6. -/
theorem c6_corporate_action_witness :
    ([⟨1, 1, TxKind.acquisition, 200, 5, 0, none⟩].map basis
      = (exC6.filter fun t =>
          !(t.kind == TxKind.corporateAction)).map basis) ∧
    (∀ r : ℚ, r ≠ 0 → ∀ (cutoff : Nat) (t : Transaction),
      basis (adjustBy r cutoff t) = basis t) ∧
    (∀ (r : ℚ) (cutoff : Nat) (t : Transaction), t.date < cutoff →
      (adjustBy r cutoff t).quantity = t.quantity * r ∧
      (adjustBy r cutoff t).unitPrice = t.unitPrice / r) ∧
    (∀ txns₂ : List Transaction, (∃ t ∈ txns₂, badCA t) →
      ∃ s i, applyCorporateActions txns₂
        = Except.error (CGTError.UnsupportedCorporateAction s i)) ∧
    applyCorporateActions exC6
      = Except.ok [⟨1, 1, TxKind.acquisition, 200, 5, 0, none⟩] :=
  c6_corporate_action exC6 (by decide)
    [⟨1, 1, TxKind.acquisition, 200, 5, 0, none⟩] (by decide)

theorem securityIds_perm (l₁ l₂ : List Transaction) (hp : l₁.Perm l₂) :
    securityIds l₁ = securityIds l₂ := by
  unfold securityIds
  have hd : List.Perm (l₁.map Transaction.security).dedup
      (l₂.map Transaction.security).dedup :=
    (hp.map Transaction.security).dedup
  have hsp : List.Perm
      (List.insertionSort (fun a b : Nat => a ≤ b)
        (l₁.map Transaction.security).dedup)
      (List.insertionSort (fun a b : Nat => a ≤ b)
        (l₂.map Transaction.security).dedup) :=
    (List.perm_insertionSort _ _).trans
      (hd.trans (List.perm_insertionSort _ _).symm)
  exact List.eq_of_perm_of_sorted hsp
    (List.sorted_insertionSort _ _) (List.sorted_insertionSort _ _)

theorem sortedTx_eq (l₁ l₂ : List Transaction) (hp : l₁.Perm l₂)
    (hd : (l₁.map Transaction.date).Pairwise (fun a b => a ≠ b)) :
    List.insertionSort txLE l₁ = List.insertionSort txLE l₂ := by
  have hperm : List.Perm (List.insertionSort txLE l₁)
      (List.insertionSort txLE l₂) :=
    (List.perm_insertionSort txLE l₁).trans
      (hp.trans (List.perm_insertionSort txLE l₂).symm)
  have hd' : l₁.Pairwise (fun a b : Transaction => a.date ≠ b.date) :=
    List.pairwise_map.mp hd
  have hsymm : ∀ {a b : Transaction},
      a.date ≠ b.date → b.date ≠ a.date := fun h => h.symm
  have hd1 : (List.insertionSort txLE l₁).Pairwise
      (fun a b : Transaction => a.date ≠ b.date) :=
    ((List.perm_insertionSort txLE l₁).pairwise_iff hsymm).mpr hd'
  have hd2 : (List.insertionSort txLE l₂).Pairwise
      (fun a b : Transaction => a.date ≠ b.date) :=
    ((List.perm_insertionSort txLE l₂).pairwise_iff hsymm).mpr
      ((hp.pairwise_iff hsymm).mp hd')
  have hstrict : ∀ {a b : Transaction},
      txLE a b ∧ a.date ≠ b.date → a.date < b.date := by
    rintro a b ⟨hle | ⟨heq, -⟩, hne⟩
    · exact hle
    · exact absurd heq hne
  have hlt1 : (List.insertionSort txLE l₁).Pairwise
      (fun a b : Transaction => a.date < b.date) :=
    ((List.sorted_insertionSort txLE l₁).and hd1).imp hstrict
  have hlt2 : (List.insertionSort txLE l₂).Pairwise
      (fun a b : Transaction => a.date < b.date) :=
    ((List.sorted_insertionSort txLE l₂).and hd2).imp hstrict
  haveI : IsAntisymm Transaction (fun a b : Transaction => a.date < b.date) :=
    ⟨fun a b h₁ h₂ => absurd h₂ (Nat.lt_asymm h₁)⟩
  exact List.eq_of_perm_of_sorted hperm hlt1 hlt2

/-- C7 counterexample: with all dates fixed, swapping two same-date
acquisitions that compete for a single bed-and-breakfast match changes the
report, although the input contains no same-date acquisition/disposal pair
at all (so no same-day match competition, the only exception the claim
allows). -/
theorem c7_counterexample :
    exL1.Perm exL2 ∧
    (∀ t ∈ exL1, t.kind = TxKind.disposal →
      ∀ a ∈ exL1, a.kind = TxKind.acquisition → a.date ≠ t.date) ∧
    calculate exL1 ≠ calculate exL2 := by
  refine ⟨by decide, by decide, by decide⟩

/-- C7 (amended): the computation is a pure function of the input list, and
permuting the input while keeping all dates fixed produces an identical
report provided no two transactions of the same security share a date; when
same-date transactions exist, the documented input-order tie-breaks (among
same-day candidates, among equal-date bed-and-breakfast candidates, and
among same-date disposals) may change the allocation. -/
theorem c7_determinism_modulo_ties (l₁ l₂ : List Transaction)
    (hp : l₁.Perm l₂)
    (hd : ∀ s ∈ securityIds l₁,
      ((l₁.filter fun t => t.security == s).map Transaction.date).Pairwise
        (fun a b => a ≠ b)) :
    calculate l₁ = calculate l₂ := by
  have hids : securityIds l₁ = securityIds l₂ := securityIds_perm l₁ l₂ hp
  have hrep : ∀ s ∈ securityIds l₁, reportFor l₁ s = reportFor l₂ s := by
    intro s hs
    unfold reportFor processSecurity
    rw [sortedTx_eq (l₁.filter fun t => t.security == s)
        (l₂.filter fun t => t.security == s)
        (hp.filter fun t => t.security == s) (hd s hs)]
  have hent : (securityIds l₁).map (fun s => (s, reportFor l₁ s))
      = (securityIds l₂).map (fun s => (s, reportFor l₂ s)) := by
    rw [← hids]
    exact List.map_congr_left (fun s hs => by rw [hrep s hs])
  simp only [calculate]
  rw [hent]

/-- Witness for C7's amended theorem on a distinct-date permutation pair. -/
theorem c7_determinism_modulo_ties_witness :
    calculate exL3 = calculate exL4 :=
  c7_determinism_modulo_ties exL3 exL4 (by decide) (by decide)

/-- C8: for two pooled acquisitions of 100 units at 10 and 100 units at 20
followed by a pool disposal of 50 units, the allowable cost allocated to the
disposal is exactly 50 × ((100·10 + 100·20) / 200) = 750, and the pool
retains 150 units at aggregate cost 2250. -/
theorem c8_pool_cost_example :
    (processSecurity exC8).map (fun r => r.1.map DisposalResult.allowableCost)
      = Except.ok [50 * ((100 * 10 + 100 * 20) / 200)] ∧
    (processSecurity exC8).map (fun r => r.1.map DisposalResult.allowableCost)
      = Except.ok [750] ∧
    (processSecurity exC8).map (fun r => r.2) = Except.ok ⟨150, 2250⟩ := by
  refine ⟨by decide, by decide, by decide⟩

/-- C9: the aggregator's total gains is the sum of the strictly positive
entries, its total losses is the magnitude of the sum of the negative
entries, and the report's net is total gains minus total losses. -/
theorem c9_aggregator_totals (entries : List ℚ) :
    (aggregate entries).1 = (entries.filter fun g => decide (0 < g)).sum ∧
    (aggregate entries).2 = -((entries.filter fun g => decide (g < 0)).sum) ∧
    ∀ txns : List Transaction,
      (calculate txns).net
        = (calculate txns).totalGains - (calculate txns).totalLosses := by
  have key : ∀ (es : List ℚ) (a b : ℚ),
      es.foldl
        (fun acc g =>
          if 0 < g then (acc.1 + g, acc.2)
          else if g < 0 then (acc.1, acc.2 - g)
          else acc) (a, b)
        = (a + (es.filter fun g => decide (0 < g)).sum,
           b - (es.filter fun g => decide (g < 0)).sum) := by
    intro es
    induction es with
    | nil => intro a b; simp
    | cons g es ih =>
      intro a b
      by_cases hpos : 0 < g
      · rw [List.foldl_cons, if_pos hpos,
          List.filter_cons_of_pos (by simpa using hpos),
          List.filter_cons_of_neg (by simp; linarith), ih]
        rw [List.sum_cons]
        simp only [Prod.mk.injEq]
        exact ⟨by ring, by ring⟩
      · by_cases hneg : g < 0
        · rw [List.foldl_cons, if_neg hpos, if_pos hneg,
            List.filter_cons_of_neg (by simpa using hpos),
            List.filter_cons_of_pos (by simpa using hneg), ih]
          rw [List.sum_cons]
          simp only [Prod.mk.injEq]
          exact ⟨by ring, by ring⟩
        · rw [List.foldl_cons, if_neg hpos, if_neg hneg,
            List.filter_cons_of_neg (by simpa using hpos),
            List.filter_cons_of_neg (by simpa using hneg), ih]
  refine ⟨?_, ?_, fun txns => rfl⟩
  · rw [show aggregate entries
        = (0 + (entries.filter fun g => decide (0 < g)).sum,
           0 - (entries.filter fun g => decide (g < 0)).sum) from key entries 0 0]
    ring_nf
  · rw [show aggregate entries
        = (0 + (entries.filter fun g => decide (0 < g)).sum,
           0 - (entries.filter fun g => decide (g < 0)).sum) from key entries 0 0]
    ring_nf

/-- C10: errors are security-scoped -- for any batch and any securities
s ≠ f, removing all of f's transactions leaves s's computed result
identical; and on the concrete two-security batch exC10 the report carries a
per-security InsufficientPoolQuantity error for the failed security next to
the other security's successful entry instead of aborting the run. -/
theorem c10_security_scoped (txns : List Transaction) (f s : Nat)
    (hs : s ≠ f) :
    reportFor (txns.filter fun t => !(t.security == f)) s
      = reportFor txns s ∧
    (calculate exC10).entries.map (fun e => (e.1, e.2.isOk))
      = [(1, false), (2, true)] ∧
    reportFor exC10 1
      = Except.error (CGTError.InsufficientPoolQuantity 1 0) := by
  refine ⟨?_, by decide, by decide⟩
  unfold reportFor
  rw [List.filter_filter]
  have hcong : ∀ t ∈ txns,
      ((fun t : Transaction => t.security == s) t &&
        (fun t : Transaction => !(t.security == f)) t)
      = (fun t : Transaction => t.security == s) t := by
    intro t _
    by_cases hts : t.security = s
    · subst hts
      simp [beq_eq_false_iff_ne.mpr hs]
    · simp [hts]
  rw [List.filter_congr hcong]

/-- Witness for C10 applying the scoping theorem at the concrete batch with
failing security 1 and surviving security 2. -/
theorem c10_security_scoped_witness :
    reportFor (exC10.filter fun t => !(t.security == 1)) 2
      = reportFor exC10 2 ∧
    (calculate exC10).entries.map (fun e => (e.1, e.2.isOk))
      = [(1, false), (2, true)] ∧
    reportFor exC10 1
      = Except.error (CGTError.InsufficientPoolQuantity 1 0) :=
  c10_security_scoped exC10 1 2 (by decide)

end CGT
